import Mathlib

/-!
Verification of the stellar-drive mutation-synchronization pipeline.

The repository ships the sync engine behind `@prabhask5/stellar-engine`;
the engine core (operation queue, coalescer, push/pull pipelines,
conflict resolver, tombstone manager, sync coordinator) is described in
the API reference and the design document but its implementation source
is not part of this source tree, so those components are modelled here
from the specification text.  The auth-state resolution function
`resolveAuthState` IS present in the tree and is embedded directly from
its source.

Field values are modelled as integers: the claims under verification
only inspect equality of values, last-write-wins selection and additive
increments, none of which depend on the concrete payload type.
-/

namespace StellarDrive

/-! ## Data model -/

/-- Modelled from the spec: the resolution winner of a conflicted field,
`winner ∈ {local, remote, merged}` of the `ConflictRecord` audit entry
(§3 of the design document). -/
inductive Winner where
  | localW
  | remoteW
  | merged
  deriving DecidableEq, Repr

/-- Modelled from the spec: a `ConflictRecord` audit entry (§3): entity
and field identity, both input values, the resolved value, the winner
and the free-form strategy label. -/
structure ConflictRecord where
  field : String
  localValue : Int
  remoteValue : Int
  resolvedValue : Int
  winner : Winner
  strategy : String
  deriving DecidableEq, Repr

/-- Modelled from the spec: the per-field slice of `TableSyncConfig`
(§3): whether the field is excluded from conflict resolution and
whether it is resolved by additive numeric merge. -/
structure FieldPolicy where
  excludeFromConflict : Bool
  numericMerge : Bool
  deriving DecidableEq, Repr

/-- Modelled from the spec: the per-field input of the Conflict Resolver
(§4.5): local value plus whether a local pending operation still targets
the field (and, for additive fields, the summed pending delta), remote
value, both `updated_at` timestamps, both records' tombstone flags and
both writers' device identifiers. -/
structure FieldCtx where
  localValue : Int
  remoteValue : Int
  localPending : Bool
  localDelta : Int
  localDeleted : Bool
  remoteDeleted : Bool
  localUpdatedAt : Nat
  remoteUpdatedAt : Nat
  localDeviceId : String
  remoteDeviceId : String
  deriving DecidableEq, Repr

/-- Modelled from the spec: the outcome of resolving one field —
resolved value, winner, strategy label, and whether the resolution is
appended to the conflict audit history (§4.5: every tier-4 resolution
is audited; excluded fields produce no audit record). -/
structure Resolution where
  value : Int
  winner : Winner
  strategy : String
  audited : Bool
  deriving DecidableEq, Repr

/-! ## Conflict Resolver (§4.5) -/

/-- Modelled from the spec: the Conflict Resolver for one differing
field (§4.5), whose implementation is not in this source tree.  Tier
order: (1) excluded field — take remote iff remote is newer, no audit;
(3) numeric-merge field — resolved value is the remote value plus the
local pending delta (`remote_base + local_delta + remote_delta`);
(4) same field, both changed, not additive — first matching rule of
`local_pending`, then `delete_wins`, then `last_write_wins` with the
lexicographically larger device identifier breaking exact timestamp
ties.  (Tier 2, non-overlapping change, never reaches the resolver: the
field-by-field diff of §4.4 only delegates fields that differ.) -/
def resolveField (policy : FieldPolicy) (ctx : FieldCtx) : Resolution :=
  if policy.excludeFromConflict then
    if ctx.localUpdatedAt < ctx.remoteUpdatedAt then
      ⟨ctx.remoteValue, .remoteW, "excluded_latest", false⟩
    else
      ⟨ctx.localValue, .localW, "excluded_latest", false⟩
  else if policy.numericMerge then
    ⟨ctx.remoteValue + ctx.localDelta, .merged, "numeric_merge", true⟩
  else if ctx.localPending then
    ⟨ctx.localValue, .localW, "local_pending", true⟩
  else if ctx.localDeleted || ctx.remoteDeleted then
    if ctx.remoteDeleted then
      ⟨ctx.remoteValue, .remoteW, "delete_wins", true⟩
    else
      ⟨ctx.localValue, .localW, "delete_wins", true⟩
  else if ctx.localUpdatedAt < ctx.remoteUpdatedAt then
    ⟨ctx.remoteValue, .remoteW, "last_write_wins", true⟩
  else if ctx.remoteUpdatedAt < ctx.localUpdatedAt then
    ⟨ctx.localValue, .localW, "last_write_wins", true⟩
  else if ctx.localDeviceId < ctx.remoteDeviceId then
    ⟨ctx.remoteValue, .remoteW, "last_write_wins", true⟩
  else
    ⟨ctx.localValue, .localW, "last_write_wins", true⟩

/-- Swap the two replicas' perspectives on the same conflicted field:
what replica A sees as local, replica B sees as remote. -/
def FieldCtx.mirror (ctx : FieldCtx) : FieldCtx :=
  { localValue := ctx.remoteValue
    remoteValue := ctx.localValue
    localPending := false
    localDelta := 0
    localDeleted := ctx.remoteDeleted
    remoteDeleted := ctx.localDeleted
    localUpdatedAt := ctx.remoteUpdatedAt
    remoteUpdatedAt := ctx.localUpdatedAt
    localDeviceId := ctx.remoteDeviceId
    remoteDeviceId := ctx.localDeviceId }

/-! ## Tombstone Manager (§4.6) -/

/-- Modelled from the spec: an entity record's system fields (§3):
tombstone flag `deleted`, `updated_at`, and the local monotonic
`_version` counter.  Application fields are an association list from
field name to value. -/
structure EntityRecord where
  fields : List (String × Int)
  updatedAt : Nat
  deleted : Bool
  version : Nat
  deriving DecidableEq, Repr

/-- Modelled from the spec: the default tombstone maximum age
(`tombstoneMaxAgeDays`, default 7), expressed in milliseconds. -/
def defaultTombstoneMaxAgeMs : Nat := 7 * 24 * 60 * 60 * 1000

/-- Modelled from the spec: the Tombstone Manager sweep (§4.6), whose
implementation is not in this source tree: any local record with
`deleted = true` and `updated_at` older than the configured maximum age
is purged from the local store entirely; everything else is kept. -/
def tombstoneSweep (maxAge now : Nat) (store : List EntityRecord) :
    List EntityRecord :=
  store.filter (fun r => !(r.deleted && decide (r.updatedAt + maxAge < now)))

/-! ## Operation Queue and Coalescer (§3, §4.2) -/

/-- Modelled from the spec: the intent of one queued mutation
(`operationType ∈ {create, set, increment, delete}` with its payload,
§3): full entity payload for `create`, field/value pairs for `set`
(single-field when enqueued, possibly multi-field after coalescing),
field and delta for `increment`, nothing for `delete`. -/
inductive OpIntent where
  | create (payload : List (String × Int))
  | set (payload : List (String × Int))
  | increment (field : String) (delta : Int)
  | delete
  deriving DecidableEq, Repr

/-- Modelled from the spec: a queued `SyncOperation` (§3): the intent
plus `enqueuedAt`, `retries` and `nextRetryAt` backoff state. -/
structure SyncOperation where
  op : OpIntent
  enqueuedAt : Nat
  retries : Nat
  nextRetryAt : Option Nat
  deriving DecidableEq, Repr

/-- Maximum on `Option Nat`: `none` means no retry is scheduled and is
absorbed by any scheduled time. -/
def maxO : Option Nat → Option Nat → Option Nat
  | none, b => b
  | some x, none => some x
  | some x, some y => some (max x y)

def SyncOperation.isDelete (o : SyncOperation) : Bool :=
  match o.op with
  | .delete => true
  | _ => false

def SyncOperation.isCreate (o : SyncOperation) : Bool :=
  match o.op with
  | .create _ => true
  | _ => false

def SyncOperation.isSet (o : SyncOperation) : Bool :=
  match o.op with
  | .set _ => true
  | _ => false

/-- Whether the operation is an `increment` on field `f`. -/
def SyncOperation.isIncOn (f : String) (o : SyncOperation) : Bool :=
  match o.op with
  | .increment g _ => g = f
  | _ => false

/-- The increment delta carried by the operation (0 for non-increments). -/
def SyncOperation.delta (o : SyncOperation) : Int :=
  match o.op with
  | .increment _ d => d
  | _ => 0

def hasDelete (ops : List SyncOperation) : Bool :=
  ops.any SyncOperation.isDelete

def hasCreate (ops : List SyncOperation) : Bool :=
  ops.any SyncOperation.isCreate

def hasSet (ops : List SyncOperation) : Bool :=
  ops.any SyncOperation.isSet

/-- Whether a `create` precedes some `delete` in the group (§4.2 step 1:
every operation in a drained queue group is not yet pushed, so a create
present in the group is an unpushed create). -/
def createBeforeDelete : List SyncOperation → Bool
  | [] => false
  | o :: rest =>
    match o.op with
    | .create _ => hasDelete rest || createBeforeDelete rest
    | _ => createBeforeDelete rest

/-- Earliest `enqueuedAt` among the operations (0 on the empty list,
which no caller reaches). -/
def minEnq : List SyncOperation → Nat
  | [] => 0
  | o :: rest => rest.foldl (fun a b => min a b.enqueuedAt) o.enqueuedAt

/-- Largest `retries` among the operations. -/
def maxRetries (ops : List SyncOperation) : Nat :=
  ops.foldl (fun a o => max a o.retries) 0

/-- Largest `nextRetryAt` among the operations (`none` when none of
them has a scheduled retry). -/
def maxNra (ops : List SyncOperation) : Option Nat :=
  ops.foldl (fun a o => maxO a o.nextRetryAt) none

/-- Overwrite-or-append one field/value pair in an entity payload. -/
def setField : List (String × Int) → String → Int → List (String × Int)
  | [], f, v => [(f, v)]
  | (g, w) :: rest, f, v =>
    if g = f then (f, v) :: rest else (g, w) :: setField rest f v

/-- Apply a list of field updates to a payload in order (later updates
overwrite earlier ones field by field). -/
def applyEntries (base : List (String × Int)) :
    List (String × Int) → List (String × Int)
  | [] => base
  | (f, v) :: rest => applyEntries (setField base f v) rest

/-- All field/value pairs carried by `set` operations, in enqueue
order. -/
def setEntries : List SyncOperation → List (String × Int)
  | [] => []
  | o :: rest =>
    match o.op with
    | .set p => p ++ setEntries rest
    | _ => setEntries rest

/-- The payload of the first `create` in the group ([] when absent). -/
def createPayloadOf : List SyncOperation → List (String × Int)
  | [] => []
  | o :: rest =>
    match o.op with
    | .create p => p
    | _ => createPayloadOf rest

/-- The suffix of the group after the first `create` (§4.2 step 2 folds
every subsequent `set` into the create's payload). -/
def afterCreate : List SyncOperation → List SyncOperation
  | [] => []
  | o :: rest =>
    match o.op with
    | .create _ => rest
    | _ => afterCreate rest

/-- Field names in first-appearance order with duplicates removed. -/
def firstDedup : List String → List String
  | [] => []
  | f :: rest => f :: (firstDedup rest).filter (fun g => g ≠ f)

/-- The fields targeted by `increment` operations, deduplicated. -/
def incFieldsOf (ops : List SyncOperation) : List String :=
  firstDedup (ops.filterMap fun o =>
    match o.op with
    | .increment f _ => some f
    | _ => none)

/-- All increments on field `f`, in enqueue order. -/
def incsOn (f : String) (ops : List SyncOperation) : List SyncOperation :=
  ops.filter (SyncOperation.isIncOn f)

/-- Modelled from the spec (§4.2 step 3): for each field independently,
coalesce all `increment` operations on that field into one, summing
deltas; the coalesced operation keeps the earliest `enqueuedAt` and the
largest `retries`/`nextRetryAt` among the folded increments (step 6). -/
def coalesceIncs (ops : List SyncOperation) : List SyncOperation :=
  (incFieldsOf ops).map fun f =>
    let l := incsOn f ops
    { op := .increment f ((l.map SyncOperation.delta).sum)
      enqueuedAt := minEnq l
      retries := maxRetries l
      nextRetryAt := maxNra l }

/-- Modelled from the spec: the Coalescer (§4.2), whose implementation
is not in this source tree.  Fixed rule order over one entity's drained
queue group: (1) a present `delete` discards everything before it,
annihilating with a preceding unpushed `create`, otherwise collapsing
the group to one `delete`; (2) a present `create` absorbs every
subsequent `set` field by field; (3) increments coalesce per field,
summing deltas; (4)/(5) plain `set`s collapse per field to the most
recent value and merge into a single outbound multi-field `set`,
increments never fold into a `set`; (6) every emitted operation keeps
the earliest `enqueuedAt` and the maximum `retries`/`nextRetryAt` among
the operations folded into it. -/
def coalesce (ops : List SyncOperation) : List SyncOperation :=
  if hasDelete ops then
    if createBeforeDelete ops then []
    else
      [{ op := .delete
         enqueuedAt := minEnq ops
         retries := maxRetries ops
         nextRetryAt := maxNra ops }]
  else
    (if hasCreate ops then
      let srcs := ops.filter fun o => o.isCreate || o.isSet
      [{ op := .create (applyEntries (createPayloadOf ops)
                          (setEntries (afterCreate ops)))
         enqueuedAt := minEnq srcs
         retries := maxRetries srcs
         nextRetryAt := maxNra srcs }]
    else if hasSet ops then
      let srcs := ops.filter SyncOperation.isSet
      [{ op := .set (applyEntries [] (setEntries ops))
         enqueuedAt := minEnq srcs
         retries := maxRetries srcs
         nextRetryAt := maxNra srcs }]
    else []) ++ coalesceIncs ops

/-- Modelled from the spec (§4.2 step 6): the source operations folded
into one coalesced output operation — everything the delete superseded
for a `delete`, the create plus the absorbed `set`s for a `create`, the
`set`s merged into the single outbound `set`, and the increments on the
same field for an `increment`. -/
def sourcesOf (ops : List SyncOperation) (o : SyncOperation) :
    List SyncOperation :=
  match o.op with
  | .delete => ops
  | .create _ => ops.filter fun x => x.isCreate || x.isSet
  | .set _ => ops.filter SyncOperation.isSet
  | .increment f _ => incsOn f ops

/-- Order on optional retry timestamps: `none` (no retry scheduled) is
below every scheduled time. -/
def leO : Option Nat → Option Nat → Prop
  | Option.none, _ => True
  | some _, Option.none => False
  | some x, some y => x ≤ y

/-! ## Pull Pipeline (§4.4) -/

/-- Look up a field's value in an entity payload. -/
def lookupField (f : String) : List (String × Int) → Option Int
  | [] => none
  | (g, v) :: rest => if g = f then some v else lookupField f rest

/-- Modelled from the spec: one remote row returned by a cursor-filtered
fetch (§4.4): the remote record and the remote change timestamp the
cursor tracks. -/
structure RemoteRow where
  record : EntityRecord
  remoteTs : Nat
  deriving DecidableEq, Repr

/-- Modelled from the spec (§4.4): resolve one field of a pulled row
against the local record.  A field absent locally or whose incoming
remote value equals the current local value is left untouched and
produces no conflict record; a differing field is delegated to the
Conflict Resolver, and audited resolutions append a `ConflictRecord`. -/
def mergeField (policy : String → FieldPolicy) (pend : List String)
    (pendInc : String → Int) (localRec remoteRec : EntityRecord)
    (ldev rdev : String) (f : String) (rv : Int) :
    Int × Option ConflictRecord :=
  match lookupField f localRec.fields with
  | none => (rv, none)
  | some lv =>
    if lv = rv then (lv, none)
    else
      let res := resolveField (policy f)
        { localValue := lv
          remoteValue := rv
          localPending := decide (f ∈ pend)
          localDelta := pendInc f
          localDeleted := localRec.deleted
          remoteDeleted := remoteRec.deleted
          localUpdatedAt := localRec.updatedAt
          remoteUpdatedAt := remoteRec.updatedAt
          localDeviceId := ldev
          remoteDeviceId := rdev }
      (res.value,
       if res.audited then
         some ⟨f, lv, rv, res.value, res.winner, res.strategy⟩
       else none)

/-- Modelled from the spec (§4.4): apply one pulled row to the local
record it matches.  Every field of the remote row is diffed against the
local record (differing fields go through the Conflict Resolver),
locally-present fields the remote row does not carry stay untouched,
and the merged record's `_version` is incremented exactly once. -/
def applyPulledRow (policy : String → FieldPolicy) (pend : List String)
    (pendInc : String → Int) (ldev rdev : String)
    (localRec remoteRec : EntityRecord) :
    EntityRecord × List ConflictRecord :=
  let step := fun (e : String × Int) =>
    mergeField policy pend pendInc localRec remoteRec ldev rdev e.1 e.2
  let merged := remoteRec.fields.map fun e => (e.1, (step e).1)
  let confs := remoteRec.fields.filterMap fun e => (step e).2
  ({ fields := merged ++
       localRec.fields.filter (fun e => (lookupField e.1 remoteRec.fields).isNone)
     updatedAt := max localRec.updatedAt remoteRec.updatedAt
     deleted := localRec.deleted || remoteRec.deleted
     version := localRec.version + 1 }, confs)

/-- Modelled from the spec (§4.4): apply a pull batch's rows in order
against a local store of type `σ`, stopping at the first row whose
application fails; returns the store reached and whether every row was
applied without error. -/
def applyRows (applyRow : σ → RemoteRow → Except String σ) (st : σ) :
    List RemoteRow → σ × Bool
  | [] => (st, true)
  | r :: rest =>
    match applyRow st r with
    | .ok st2 => applyRows applyRow st2 rest
    | .error _ => (st, false)

/-- Modelled from the spec: the Pull Pipeline's per-table batch step
(§4.4), whose implementation is not in this source tree: apply every
row of the batch; only after all rows are applied without error advance
the table's cursor to the maximum remote timestamp seen, and leave the
cursor unchanged on a mid-batch failure. -/
def pullBatch (applyRow : σ → RemoteRow → Except String σ) (st : σ)
    (cursor : Nat) (rows : List RemoteRow) : σ × Nat :=
  let res := applyRows applyRow st rows
  (res.1,
   if res.2 then rows.foldl (fun c r => max c r.remoteTs) cursor
   else cursor)

/-! ## Sync Coordinator (§4.7) -/

/-- Modelled from the spec: the cycle-serialization state of the Sync
Coordinator (§4.7): how many push-then-pull cycles are executing and
how many follow-up reruns are queued. -/
structure CoordState where
  running : Nat
  pending : Nat
  deriving DecidableEq, Repr

/-- An external event seen by the coordinator: a sync trigger (network
online, visibility regained, periodic timer, explicit request) or the
completion of the in-flight cycle. -/
inductive SyncEvent where
  | trigger
  | complete
  deriving DecidableEq, Repr

/-- Modelled from the spec: the Sync Coordinator's global-sync-lock
discipline (§4.7), whose implementation is not in this source tree.
A trigger while no cycle is in flight starts one; a trigger while a
cycle is in flight only sets the single "run once more when the current
cycle finishes" flag (never queued multiple times).  On completion,
a set flag immediately starts the follow-up cycle and is cleared;
otherwise the finished cycle releases the lock. -/
def coordStep (s : CoordState) : SyncEvent → CoordState
  | .trigger =>
    if s.running = 0 then { running := 1, pending := s.pending }
    else { running := s.running, pending := 1 }
  | .complete =>
    if s.pending = 0 then { running := s.running - 1, pending := 0 }
    else { running := s.running, pending := 0 }

/-- The coordinator before any trigger: no cycle running, no rerun
queued. -/
def coordInit : CoordState := ⟨0, 0⟩

/-- Run the coordinator over a sequence of external events. -/
def coordRun (events : List SyncEvent) : CoordState :=
  events.foldl coordStep coordInit

/-! ## Auth state resolution (`src/auth/resolveAuthState`)

Embedded from the shipped source of `resolveAuthState`.  The external
collaborators (`getSession`, `getValidOfflineSession`,
`getOfflineCredentials`, `clearOfflineSession`) are modelled as the
results their calls produce in the current environment; `Except` captures
that any of them may throw. -/

/-- A Supabase session as `resolveAuthState` observes it: the only
property consulted is `isSessionExpired`. -/
structure Session where
  expired : Bool
  deriving DecidableEq, Repr

/-- An offline session record (`OfflineSession`): `resolveAuthState`
consults its `userId`. -/
structure OfflineSession where
  userId : String
  deriving DecidableEq, Repr

/-- Cached offline credentials (`OfflineCredentials`):
`resolveAuthState` consults the `userId` and returns the profile. -/
structure OfflineCredentials where
  userId : String
  deriving DecidableEq, Repr

/-- The `authMode` of an `AuthStateResult`:
`'supabase' | 'offline' | 'none'`. -/
inductive AuthMode where
  | supabase
  | offline
  | none
  deriving DecidableEq, Repr

/-- The `AuthStateResult` returned by `resolveAuthState`. -/
structure AuthStateResult where
  session : Option Session
  authMode : AuthMode
  offlineProfile : Option OfflineCredentials
  deriving DecidableEq, Repr

/-- The environment `resolveAuthState` runs in: connectivity and the
outcome of each external call it can make. -/
structure AuthEnv where
  isOffline : Bool
  getSession : Except String (Option Session)
  getValidOfflineSession : Except String (Option OfflineSession)
  getOfflineCredentials : Except String (Option OfflineCredentials)
  clearOfflineSession : Except String Unit
  deriving Repr

/-- The result `resolveAuthState` falls back to:
`{ session: null, authMode: 'none', offlineProfile: null }`. -/
def noneAuthResult : AuthStateResult := ⟨Option.none, .none, Option.none⟩

/-- The `hasValidSession` check of `resolveAuthState`:
`session && !isSessionExpired(session)`. -/
def hasValid : Option Session → Bool
  | some s => !s.expired
  | Option.none => false

/-- The body of the `try` block of `resolveAuthState`, step for step
(each external `await` written as an explicit match on its outcome, an
`error` propagating like a thrown exception): fetch the session once;
online, a valid session yields `'supabase'` and anything else `'none'`;
offline, a valid stored session still yields `'supabase'`, otherwise
the offline session is checked against the cached credentials — a
`userId` match yields `'offline'` with the profile, while a missing or
mismatching profile clears the offline session and yields `'none'`.
The second component records whether `clearOfflineSession` ran to
completion. -/
def resolveAuthStateCore (env : AuthEnv) :
    Except String (AuthStateResult × Bool) :=
  match env.getSession with
  | .error e => .error e
  | .ok session =>
    if !env.isOffline then
      if hasValid session then
        .ok (⟨session, .supabase, Option.none⟩, false)
      else
        .ok (noneAuthResult, false)
    else if hasValid session then
      .ok (⟨session, .supabase, Option.none⟩, false)
    else
      match env.getValidOfflineSession with
      | .error e => .error e
      | .ok (some offlineSession) =>
        (match env.getOfflineCredentials with
        | .error e => .error e
        | .ok (some profile) =>
          if profile.userId = offlineSession.userId then
            .ok (⟨Option.none, .offline, some profile⟩, false)
          else
            (match env.clearOfflineSession with
            | .error e => .error e
            | .ok _ => .ok (noneAuthResult, true))
        | .ok Option.none =>
          (match env.clearOfflineSession with
          | .error e => .error e
          | .ok _ => .ok (noneAuthResult, true)))
      | .ok Option.none => .ok (noneAuthResult, false)

/-- The function `resolveAuthState`: the `try`/`catch` wrapper — any failure inside
the body is caught and mapped to
`{ session: null, authMode: 'none', offlineProfile: null }`. -/
def resolveAuthState (env : AuthEnv) : AuthStateResult × Bool :=
  match resolveAuthStateCore env with
  | .ok r => r
  | .error _ => (noneAuthResult, false)

/-! ## Two-device concurrent-increment scenario (§4.5 tier 3, §8) -/

/-- Policy of a field declared in `numericMergeFields`. -/
def numericPolicy : FieldPolicy := ⟨false, true⟩

/-- Policy of an ordinary field: conflicted and not additive. -/
def plainPolicy : FieldPolicy := ⟨false, false⟩

/-- Modelled from the spec (§8, concurrent-increment convergence): both
devices start from server value `b`; device A holds a queued
`increment(da)`, device B a queued `increment(db)`, both applied to
their local stores already.  A pushes first (the server applies the
delta additively); B pulls while its own increment is still queued, so
the resolver's additive tier merges `remote_base + local_delta`; B then
pushes its delta; A's final pull has no pending delta left.  Returns
(device A's final value, device B's value after its merge, server's
final value). -/
def twoDeviceIncrementSync (b da db : Int) : Int × Int × Int :=
  let server1 := b + da
  let bMerge := resolveField numericPolicy
    { localValue := b + db
      remoteValue := server1
      localPending := true
      localDelta := db
      localDeleted := false
      remoteDeleted := false
      localUpdatedAt := 1
      remoteUpdatedAt := 2
      localDeviceId := "B"
      remoteDeviceId := "A" }
  let server2 := server1 + db
  let aMerge := resolveField numericPolicy
    { localValue := b + da
      remoteValue := server2
      localPending := false
      localDelta := 0
      localDeleted := false
      remoteDeleted := false
      localUpdatedAt := 2
      remoteUpdatedAt := 3
      localDeviceId := "A"
      remoteDeviceId := "B" }
  (aMerge.value, bMerge.value, server2)

/-! ## Theorems -/

/-- C7: after a tombstone GC sweep, every record with `deleted = true`
whose `updated_at` is older than the configured maximum age is absent
from the local store, every soft-deleted record newer than the
threshold is still present, and non-deleted records are never purged. -/
theorem tombstoneSweep_purges_only_old_tombstones
    (maxAge now : Nat) (store : List EntityRecord)
    (r : EntityRecord) (hr : r ∈ store) :
    (r.deleted = true → r.updatedAt + maxAge < now →
       r ∉ tombstoneSweep maxAge now store) ∧
    (r.deleted = true → ¬ r.updatedAt + maxAge < now →
       r ∈ tombstoneSweep maxAge now store) ∧
    (r.deleted = false → r ∈ tombstoneSweep maxAge now store) := by
  unfold tombstoneSweep
  refine ⟨fun h1 h2 => ?_, fun h1 h2 => ?_, fun h1 => ?_⟩
  · simp [List.mem_filter, hr, h1, h2]
  · simp [List.mem_filter, hr, h1, h2]
  · simp [List.mem_filter, hr, h1]

/-- C7 witness: with max age 10 at time 100, an old tombstone
(`updated_at = 0`) is purged while a fresh tombstone (`updated_at =
95`) and a live record survive the sweep. -/
theorem tombstoneSweep_purges_only_old_tombstones_witness :
    (⟨[], 0, true, 0⟩ : EntityRecord) ∉
      tombstoneSweep 10 100 [⟨[], 0, true, 0⟩, ⟨[], 95, true, 0⟩] ∧
    (⟨[], 95, true, 0⟩ : EntityRecord) ∈
      tombstoneSweep 10 100 [⟨[], 0, true, 0⟩, ⟨[], 95, true, 0⟩] ∧
    (⟨[], 0, false, 3⟩ : EntityRecord) ∈
      tombstoneSweep 10 100 [⟨[], 0, false, 3⟩] :=
  ⟨(tombstoneSweep_purges_only_old_tombstones 10 100 _ _
      (by simp)).1 rfl (by decide),
   (tombstoneSweep_purges_only_old_tombstones 10 100 _ _
      (by simp)).2.1 rfl (by decide),
   (tombstoneSweep_purges_only_old_tombstones 10 100 _ _
      (by simp)).2.2 rfl⟩

/-- C1: for a non-additive, non-excluded field both sides changed, the
resolver applies exactly the first matching rule in the fixed order
local_pending, delete_wins, last_write_wins: a queued local operation
on the field makes the local value win; otherwise either side's
tombstone wins regardless of timestamps; otherwise the later
`updated_at` wins, an exact timestamp tie going to the lexicographically
larger device identifier; and two replicas evaluating the same conflict
from opposite perspectives resolve to the same value. -/
theorem resolveField_tier4_rule_order (policy : FieldPolicy) (ctx : FieldCtx)
    (hex : policy.excludeFromConflict = false)
    (hnm : policy.numericMerge = false) :
    (ctx.localPending = true →
      resolveField policy ctx =
        ⟨ctx.localValue, .localW, "local_pending", true⟩) ∧
    (ctx.localPending = false →
      ctx.localDeleted = true ∨ ctx.remoteDeleted = true →
      (resolveField policy ctx).strategy = "delete_wins" ∧
      (resolveField policy ctx).winner =
        (if ctx.remoteDeleted = true then .remoteW else .localW)) ∧
    (ctx.localPending = false → ctx.localDeleted = false →
      ctx.remoteDeleted = false →
      (resolveField policy ctx).strategy = "last_write_wins" ∧
      (ctx.localUpdatedAt < ctx.remoteUpdatedAt →
        (resolveField policy ctx).value = ctx.remoteValue) ∧
      (ctx.remoteUpdatedAt < ctx.localUpdatedAt →
        (resolveField policy ctx).value = ctx.localValue) ∧
      (ctx.localUpdatedAt = ctx.remoteUpdatedAt →
        (resolveField policy ctx).value =
          if ctx.localDeviceId < ctx.remoteDeviceId then ctx.remoteValue
          else ctx.localValue)) ∧
    (ctx.localPending = false → ctx.localDeleted = false →
      ctx.remoteDeleted = false →
      ctx.localDeviceId ≠ ctx.remoteDeviceId →
      (resolveField policy ctx).value =
        (resolveField policy ctx.mirror).value) := by
  refine ⟨fun hp => ?_, fun hp hd => ?_, fun hp hld hrd => ?_,
          fun hp hld hrd hdev => ?_⟩
  · simp [resolveField, hex, hnm, hp]
  · rcases hd with hd | hd
    · cases hrdel : ctx.remoteDeleted <;>
        simp [resolveField, hex, hnm, hp, hd, hrdel]
    · simp [resolveField, hex, hnm, hp, hd]
  · refine ⟨?_, fun h => ?_, fun h => ?_, fun h => ?_⟩
    · rcases lt_trichotomy ctx.localUpdatedAt ctx.remoteUpdatedAt
        with h | h | h
      · simp [resolveField, hex, hnm, hp, hld, hrd, h]
      · by_cases hdv : ctx.localDeviceId < ctx.remoteDeviceId <;>
          simp [resolveField, hex, hnm, hp, hld, hrd, h, hdv]
      · simp [resolveField, hex, hnm, hp, hld, hrd, h, lt_asymm h]
    · simp [resolveField, hex, hnm, hp, hld, hrd, h]
    · simp [resolveField, hex, hnm, hp, hld, hrd, h, lt_asymm h]
    · by_cases hdv : ctx.localDeviceId < ctx.remoteDeviceId <;>
        simp [resolveField, hex, hnm, hp, hld, hrd, h, hdv]
  · rcases lt_trichotomy ctx.localUpdatedAt ctx.remoteUpdatedAt
      with h | h | h
    · simp [resolveField, FieldCtx.mirror, hex, hnm, hp, hld, hrd, h,
        lt_asymm h]
    · rcases lt_trichotomy ctx.localDeviceId ctx.remoteDeviceId
        with hdv | hdv | hdv
      · simp [resolveField, FieldCtx.mirror, hex, hnm, hp, hld, hrd, h,
          hdv, lt_asymm hdv]
      · exact absurd hdv hdev
      · simp [resolveField, FieldCtx.mirror, hex, hnm, hp, hld, hrd, h,
          hdv, lt_asymm hdv]
    · simp [resolveField, FieldCtx.mirror, hex, hnm, hp, hld, hrd, h,
        lt_asymm h]

/-- C1 witness: at an exact timestamp tie between local value 10
written by device "a" and remote value 20 written by device "b", the
lexicographically larger device "b" wins. -/
theorem resolveField_tier4_rule_order_witness :
    (resolveField plainPolicy
        ⟨10, 20, false, 0, false, false, 5, 5, "a", "b"⟩).value =
      if ("a" : String) < "b" then 20 else 10 :=
  ((resolveField_tier4_rule_order plainPolicy
      ⟨10, 20, false, 0, false, false, 5, 5, "a", "b"⟩
      rfl rfl).2.2.1 rfl rfl rfl).2.2.2 rfl

/-- C2: on a numeric-merge-eligible field the resolver sums the two
independent deltas — the resolved value is
`remote_base + local_delta + remote_delta_since_base` — and in the
two-device concurrent-increment run both devices and the server
converge on `base + local_delta + remote_delta`; with two concurrent
`+1` increments that is `base + 2`, never `base + 1`. -/
theorem numeric_merge_sums_deltas (policy : FieldPolicy) (ctx : FieldCtx)
    (rb dl dr b da db : Int)
    (hex : policy.excludeFromConflict = false)
    (hnm : policy.numericMerge = true)
    (hrv : ctx.remoteValue = rb + dr)
    (hdl : ctx.localDelta = dl) :
    (resolveField policy ctx).value = rb + dl + dr ∧
    twoDeviceIncrementSync b da db =
      (b + da + db, b + da + db, b + da + db) ∧
    (da = 1 → db = 1 →
      twoDeviceIncrementSync b da db = (b + 2, b + 2, b + 2) ∧
      b + 2 ≠ b + 1) := by
  refine ⟨?_, ?_, fun h1 h2 => ⟨?_, by omega⟩⟩
  · simp only [resolveField, hex, hnm, Bool.false_eq_true, if_false,
      if_true, hrv, hdl]
    ring
  · simp [twoDeviceIncrementSync, resolveField, numericPolicy,
      Prod.ext_iff]
  · subst h1; subst h2
    simp [twoDeviceIncrementSync, resolveField, numericPolicy,
      Prod.ext_iff]
    omega

/-- C2 witness: with remote base 7, remote delta 3 (remote value 10)
and local pending delta 2 the resolver returns 12 = 7 + 2 + 3, and the
two-device run from base 10 with two `+1` increments converges to 12 on
both devices and the server. -/
theorem numeric_merge_sums_deltas_witness :
    (resolveField numericPolicy
        ⟨0, 10, true, 2, false, false, 1, 2, "B", "A"⟩).value =
      7 + 2 + 3 ∧
    twoDeviceIncrementSync 10 1 1 =
      (10 + 1 + 1, 10 + 1 + 1, 10 + 1 + 1) ∧
    ((1 : Int) = 1 → (1 : Int) = 1 →
      twoDeviceIncrementSync 10 1 1 = (10 + 2, 10 + 2, 10 + 2) ∧
      (10 : Int) + 2 ≠ 10 + 1) :=
  numeric_merge_sums_deltas numericPolicy
    ⟨0, 10, true, 2, false, false, 1, 2, "B", "A"⟩
    7 2 3 10 1 1 rfl rfl (by norm_num) rfl

/-- C8: in every state the coordinator reaches from the initial state
under any sequence of sync triggers and cycle completions, at most one
push-then-pull cycle is executing and at most one follow-up rerun is
queued — never two concurrent cycles, never more than one queued
rerun. -/
theorem coordRun_at_most_one_cycle (events : List SyncEvent) :
    (coordRun events).running ≤ 1 ∧ (coordRun events).pending ≤ 1 := by
  have gen : ∀ s : CoordState, s.running ≤ 1 → s.pending ≤ 1 →
      (events.foldl coordStep s).running ≤ 1 ∧
      (events.foldl coordStep s).pending ≤ 1 := by
    induction events with
    | nil => exact fun s h1 h2 => ⟨h1, h2⟩
    | cons e rest ih =>
      intro s h1 h2
      have hs : (coordStep s e).running ≤ 1 ∧ (coordStep s e).pending ≤ 1 := by
        cases e
        · by_cases h : s.running = 0
          · exact ⟨by simp [coordStep, h], by simpa [coordStep, h] using h2⟩
          · exact ⟨by simpa [coordStep, h] using h1, by simp [coordStep, h]⟩
        · by_cases h : s.pending = 0
          · exact ⟨by simp [coordStep, h]; omega, by simp [coordStep, h]⟩
          · exact ⟨by simpa [coordStep, h] using h1, by simp [coordStep, h]⟩
      simpa using ih (coordStep s e) hs.1 hs.2
  exact gen coordInit (by simp [coordInit]) (by simp [coordInit])

/-- The cursor fold never moves backwards. -/
theorem le_cursorFold (rows : List RemoteRow) : ∀ cursor : Nat,
    cursor ≤ rows.foldl (fun c r => max c r.remoteTs) cursor := by
  induction rows with
  | nil => intro c; simp
  | cons r rest ih =>
    intro c
    exact le_trans (le_max_left c r.remoteTs) (ih (max c r.remoteTs))

/-- The cursor fold dominates every row timestamp in the batch. -/
theorem mem_le_cursorFold (rows : List RemoteRow) : ∀ cursor : Nat,
    ∀ r ∈ rows, r.remoteTs ≤ rows.foldl (fun c r => max c r.remoteTs) cursor := by
  induction rows with
  | nil => intro c r hr; cases hr
  | cons r0 rest ih =>
    intro c r hr
    rcases List.mem_cons.mp hr with h | h
    · subst h
      exact le_trans (le_max_right c r.remoteTs) (le_cursorFold rest _)
    · exact ih (max c r0.remoteTs) r h

/-- The cursor fold is either the starting cursor or some row's
timestamp. -/
theorem cursorFold_mem (rows : List RemoteRow) : ∀ cursor : Nat,
    rows.foldl (fun c r => max c r.remoteTs) cursor = cursor ∨
    ∃ r ∈ rows, rows.foldl (fun c r => max c r.remoteTs) cursor = r.remoteTs := by
  induction rows with
  | nil => intro c; exact Or.inl rfl
  | cons r0 rest ih =>
    intro c
    rcases ih (max c r0.remoteTs) with h | ⟨r, hr, h⟩
    · rcases max_choice c r0.remoteTs with hm | hm
      · exact Or.inl (by simpa [hm] using h)
      · exact Or.inr ⟨r0, List.mem_cons_self r0 rest, by simpa [hm] using h⟩
    · exact Or.inr ⟨r, List.mem_cons_of_mem r0 hr, by simpa using h⟩

/-- Splitting a row batch: the rows after a successfully applied prefix
are applied from the state the prefix reached, and a failed prefix
fails the whole batch. -/
theorem applyRows_append (applyRow : σ → RemoteRow → Except String σ)
    (l1 l2 : List RemoteRow) : ∀ st : σ,
    applyRows applyRow st (l1 ++ l2) =
      (let res := applyRows applyRow st l1
       if res.2 then applyRows applyRow res.1 l2 else res) := by
  induction l1 with
  | nil => intro st; simp [applyRows]
  | cons r rest ih =>
    intro st
    simp only [List.cons_append, applyRows]
    cases applyRow st r with
    | ok st2 => simpa using ih st2
    | error e => simp [applyRows]

/-- C5: the pull batch advances the table cursor to the maximum remote
timestamp seen only when every row of the batch applied without error:
a failure at any row (after any successfully applied prefix) leaves the
cursor exactly as it was before the batch, and a fully successful batch
moves the cursor to a value that dominates the old cursor and every
row's timestamp and is itself one of them. -/
theorem pullBatch_cursor_only_after_full_batch
    (applyRow : σ → RemoteRow → Except String σ) (st st2 : σ)
    (cursor : Nat) (rows pre post : List RemoteRow) (r : RemoteRow)
    (msg : String) :
    (rows = pre ++ r :: post →
      applyRows applyRow st pre = (st2, true) →
      applyRow st2 r = .error msg →
      (pullBatch applyRow st cursor rows).2 = cursor) ∧
    ((applyRows applyRow st rows).2 = true →
      cursor ≤ (pullBatch applyRow st cursor rows).2 ∧
      (∀ r2 ∈ rows, r2.remoteTs ≤ (pullBatch applyRow st cursor rows).2) ∧
      ((pullBatch applyRow st cursor rows).2 = cursor ∨
        ∃ r2 ∈ rows, (pullBatch applyRow st cursor rows).2 = r2.remoteTs)) := by
  constructor
  · intro hrows hpre hfail
    subst hrows
    have hsplit := applyRows_append applyRow pre (r :: post) st
    rw [hpre] at hsplit
    simp only [applyRows, hfail] at hsplit
    simp [pullBatch, hsplit]
  · intro hok
    simp only [pullBatch, hok, if_true]
    exact ⟨le_cursorFold rows cursor,
           fun r2 h2 => mem_le_cursorFold rows cursor r2 h2,
           cursorFold_mem rows cursor⟩

/-- C5 witness: with cursor 3, a batch whose second row fails leaves
the cursor at 3, while the batch of the two good rows alone advances it
past both timestamps. -/
theorem pullBatch_cursor_only_after_full_batch_witness :
    (pullBatch
        (fun (s : Nat) (r : RemoteRow) =>
          if r.remoteTs = 99 then Except.error "boom" else Except.ok (s + 1))
        0 3
        [⟨⟨[], 0, false, 0⟩, 5⟩, ⟨⟨[], 0, false, 0⟩, 99⟩,
         ⟨⟨[], 0, false, 0⟩, 7⟩]).2 = 3 :=
  (pullBatch_cursor_only_after_full_batch
      (fun (s : Nat) (r : RemoteRow) =>
        if r.remoteTs = 99 then Except.error "boom" else Except.ok (s + 1))
      0 1 3
      [⟨⟨[], 0, false, 0⟩, 5⟩, ⟨⟨[], 0, false, 0⟩, 99⟩,
       ⟨⟨[], 0, false, 0⟩, 7⟩]
      [⟨⟨[], 0, false, 0⟩, 5⟩] [⟨⟨[], 0, false, 0⟩, 7⟩]
      ⟨⟨[], 0, false, 0⟩, 99⟩ "boom").1 rfl rfl rfl

/-- C10: `resolveAuthState` always returns an `AuthStateResult` — any
failure inside its body (session retrieval included) is caught and
mapped to `{ session: null, authMode: 'none', offlineProfile: null }`;
it returns `authMode 'offline'` only when the stored offline session's
`userId` equals the cached offline credentials' `userId` (and then
returns that profile); and on a mismatch it clears the offline session
and returns `authMode 'none'`. -/
theorem resolveAuthState_total_and_offline_guarded (env : AuthEnv) :
    (∀ msg, resolveAuthStateCore env = .error msg →
      resolveAuthState env = (noneAuthResult, false)) ∧
    ((resolveAuthState env).1.authMode = .offline →
      env.isOffline = true ∧
      ∃ os p, env.getValidOfflineSession = .ok (some os) ∧
        env.getOfflineCredentials = .ok (some p) ∧
        p.userId = os.userId ∧
        (resolveAuthState env).1.offlineProfile = some p) ∧
    (∀ s os p,
      env.isOffline = true →
      env.getSession = .ok s →
      hasValid s = false →
      env.getValidOfflineSession = .ok (some os) →
      env.getOfflineCredentials = .ok (some p) →
      p.userId ≠ os.userId →
      env.clearOfflineSession = .ok () →
      resolveAuthState env = (noneAuthResult, true)) := by
  obtain ⟨ioff, gs, gvos, goc, cos⟩ := env
  refine ⟨fun msg h => ?_, fun h => ?_,
          fun s os p h1 h2 h3 h4 h5 h6 h7 => ?_⟩
  · simp [resolveAuthState, h]
  · rcases gs with e | s
    · simp [resolveAuthState, resolveAuthStateCore, noneAuthResult] at h
    · cases ioff
      · cases hv : hasValid s <;>
          simp [resolveAuthState, resolveAuthStateCore, noneAuthResult,
            hv] at h
      · cases hv : hasValid s
        · rcases gvos with e | os
          · simp [resolveAuthState, resolveAuthStateCore, noneAuthResult,
              hv] at h
          · rcases os with _ | os
            · simp [resolveAuthState, resolveAuthStateCore, noneAuthResult,
                hv] at h
            · rcases goc with e | pr
              · simp [resolveAuthState, resolveAuthStateCore,
                  noneAuthResult, hv] at h
              · rcases pr with _ | pr
                · rcases cos with e | u <;>
                    simp [resolveAuthState, resolveAuthStateCore,
                      noneAuthResult, hv] at h
                · by_cases hid : pr.userId = os.userId
                  · refine ⟨rfl, os, pr, rfl, rfl, hid, ?_⟩
                    simp [resolveAuthState, resolveAuthStateCore, hv, hid]
                  · rcases cos with e | u <;>
                      simp [resolveAuthState, resolveAuthStateCore,
                        noneAuthResult, hv, hid] at h
        · simp [resolveAuthState, resolveAuthStateCore, noneAuthResult,
            hv] at h
  · cases h1
    cases h2
    cases h4
    cases h5
    cases h7
    simp [resolveAuthState, resolveAuthStateCore, h3, h6]

/-- C10 witness: offline, with an expired session, an offline session
for user "u1" but cached credentials for user "u2", `resolveAuthState`
clears the offline session and returns the none-result. -/
theorem resolveAuthState_total_and_offline_guarded_witness :
    resolveAuthState
        ⟨true, .ok (some ⟨true⟩), .ok (some ⟨"u1"⟩), .ok (some ⟨"u2"⟩),
         .ok ()⟩ =
      (noneAuthResult, true) :=
  (resolveAuthState_total_and_offline_guarded
      ⟨true, .ok (some ⟨true⟩), .ok (some ⟨"u1"⟩), .ok (some ⟨"u2"⟩),
       .ok ()⟩).2.2
    (some ⟨true⟩) ⟨"u1"⟩ ⟨"u2"⟩ rfl rfl rfl rfl rfl
    (by decide) rfl

/-- Looking a field up in a concatenation searches the left part
first. -/
theorem lookupField_append (f : String) (l1 l2 : List (String × Int)) :
    lookupField f (l1 ++ l2) =
      match lookupField f l1 with
      | some v => some v
      | Option.none => lookupField f l2 := by
  induction l1 with
  | nil => simp [lookupField]
  | cons e rest ih =>
    by_cases h : e.1 = f
    · simp [lookupField, h]
    · simpa [lookupField, h] using ih

/-- With duplicate-free keys, an entry sharing the key of `(f, v)` is
`(f, v)` itself. -/
theorem nodupKeys_entry_eq (l : List (String × Int)) (f : String) (v : Int)
    (e : String × Int) (hn : (l.map Prod.fst).Nodup)
    (h1 : (f, v) ∈ l) (h2 : e ∈ l) (he : e.1 = f) : e = (f, v) := by
  induction l with
  | nil => cases h1
  | cons a rest ih =>
    simp only [List.map_cons, List.nodup_cons] at hn
    rcases List.mem_cons.mp h1 with hfv | hfv <;>
      rcases List.mem_cons.mp h2 with hee | hee
    · rw [hee, hfv]
    · exfalso
      exact hn.1 (by
        have : e.1 ∈ rest.map Prod.fst := List.mem_map_of_mem Prod.fst hee
        rw [he] at this
        rw [← hfv]
        exact this)
    · exfalso
      refine hn.1 ?_
      rw [← hee, he]
      exact List.mem_map_of_mem Prod.fst hfv
    · exact ih hn.2 hfv hee

/-- Mapping a per-entry merge over a duplicate-free payload resolves
the entry for `f` to the merge of `(f, v)`. -/
theorem lookupField_map_merge (g : String × Int → Int) (f : String)
    (v : Int) : ∀ l : List (String × Int), (l.map Prod.fst).Nodup →
    (f, v) ∈ l →
    lookupField f (l.map fun e => (e.1, g e)) = some (g (f, v)) := by
  intro l
  induction l with
  | nil => intro _ h; cases h
  | cons a rest ih =>
    intro hn hm
    simp only [List.map_cons, List.nodup_cons] at hn
    by_cases h : a.1 = f
    · have ha : a = (f, v) :=
        nodupKeys_entry_eq (a :: rest) f v a
          (by simp only [List.map_cons, List.nodup_cons]; exact hn) hm
          (List.mem_cons_self a rest) h
      simp [lookupField, ha]
    · rcases List.mem_cons.mp hm with hfv | hfv
      · exact absurd (congrArg Prod.fst hfv).symm h
      · simpa [lookupField, h] using ih hn.2 hfv

/-- A conflict record emitted for one remote field names that field. -/
theorem mergeField_conflict_field (policy : String → FieldPolicy)
    (pend : List String) (pendInc : String → Int)
    (localRec remoteRec : EntityRecord) (ldev rdev : String)
    (f : String) (rv : Int) (c : ConflictRecord)
    (h : (mergeField policy pend pendInc localRec remoteRec
            ldev rdev f rv).2 = some c) :
    c.field = f := by
  unfold mergeField at h
  cases hl : lookupField f localRec.fields with
  | none => rw [hl] at h; cases h
  | some lv =>
    rw [hl] at h
    by_cases he : lv = rv
    · simp [he] at h
    · simp only [he, if_false] at h
      split at h
      · cases h; rfl
      · cases h

/-- A remote field whose value equals the local one merges to itself
with no conflict record. -/
theorem mergeField_equal (policy : String → FieldPolicy)
    (pend : List String) (pendInc : String → Int)
    (localRec remoteRec : EntityRecord) (ldev rdev : String)
    (f : String) (v : Int)
    (hloc : lookupField f localRec.fields = some v) :
    mergeField policy pend pendInc localRec remoteRec ldev rdev f v =
      (v, Option.none) := by
  unfold mergeField
  rw [hloc]
  simp

/-- C6: applying a pulled row whose value for a field is identical to
the current local value is idempotent on that field — the merged record
still carries the same value for it, no conflict record names it —
while `_version` of the applied record is incremented exactly once. -/
theorem applyPulledRow_idempotent_on_equal_field
    (policy : String → FieldPolicy) (pend : List String)
    (pendInc : String → Int) (ldev rdev : String)
    (localRec remoteRec : EntityRecord) (f : String) (v : Int)
    (hn : (remoteRec.fields.map Prod.fst).Nodup)
    (hrem : (f, v) ∈ remoteRec.fields)
    (hloc : lookupField f localRec.fields = some v) :
    (applyPulledRow policy pend pendInc ldev rdev
        localRec remoteRec).1.version = localRec.version + 1 ∧
    (∀ c ∈ (applyPulledRow policy pend pendInc ldev rdev
        localRec remoteRec).2, c.field ≠ f) ∧
    lookupField f (applyPulledRow policy pend pendInc ldev rdev
        localRec remoteRec).1.fields = some v := by
  refine ⟨rfl, ?_, ?_⟩
  · intro c hc hcf
    simp only [applyPulledRow, List.mem_filterMap] at hc
    obtain ⟨e, he, hstep⟩ := hc
    have hef : e.1 = f := by
      rw [← hcf]
      exact (mergeField_conflict_field policy pend pendInc localRec
        remoteRec ldev rdev e.1 e.2 c hstep).symm
    have hev : e = (f, v) :=
      nodupKeys_entry_eq remoteRec.fields f v e hn hrem he hef
    rw [hev] at hstep
    rw [mergeField_equal policy pend pendInc localRec remoteRec
      ldev rdev f v hloc] at hstep
    cases hstep
  · simp only [applyPulledRow]
    rw [lookupField_append]
    rw [lookupField_map_merge
      (fun e => (mergeField policy pend pendInc localRec remoteRec
        ldev rdev e.1 e.2).1) f v remoteRec.fields hn hrem]
    rw [mergeField_equal policy pend pendInc localRec remoteRec
      ldev rdev f v hloc]

/-- C6 witness: the remote row carries `("a", 1)` identical to the
local value of `"a"`; applying it bumps `_version` from 3 to 4, emits
no conflict record naming `"a"`, and leaves `"a"` at 1. -/
theorem applyPulledRow_idempotent_on_equal_field_witness :
    (applyPulledRow (fun _ => plainPolicy) [] (fun _ => 0) "a" "b"
        ⟨[("a", 1), ("b", 2)], 5, false, 3⟩
        ⟨[("a", 1), ("b", 9)], 6, false, 0⟩).1.version = 3 + 1 ∧
    (∀ c ∈ (applyPulledRow (fun _ => plainPolicy) [] (fun _ => 0) "a" "b"
        ⟨[("a", 1), ("b", 2)], 5, false, 3⟩
        ⟨[("a", 1), ("b", 9)], 6, false, 0⟩).2, c.field ≠ "a") ∧
    lookupField "a" (applyPulledRow (fun _ => plainPolicy) [] (fun _ => 0)
        "a" "b" ⟨[("a", 1), ("b", 2)], 5, false, 3⟩
        ⟨[("a", 1), ("b", 9)], 6, false, 0⟩).1.fields = some 1 :=
  applyPulledRow_idempotent_on_equal_field (fun _ => plainPolicy) []
    (fun _ => 0) "a" "b"
    ⟨[("a", 1), ("b", 2)], 5, false, 3⟩
    ⟨[("a", 1), ("b", 9)], 6, false, 0⟩ "a" 1
    (by decide) (by decide) (by decide)

theorem leO_refl (a : Option Nat) : leO a a := by
  cases a <;> simp [leO]

theorem leO_trans (a b c : Option Nat) (h1 : leO a b) (h2 : leO b c) :
    leO a c := by
  cases a <;> cases b <;> cases c <;> simp_all [leO]
  omega

theorem leO_maxO_left (a b : Option Nat) : leO a (maxO a b) := by
  cases a <;> cases b <;> simp [leO, maxO]

theorem leO_maxO_right (a b : Option Nat) : leO b (maxO a b) := by
  cases a <;> cases b <;> simp [leO, maxO]

theorem maxO_choice (a b : Option Nat) : maxO a b = a ∨ maxO a b = b := by
  cases a with
  | none => exact Or.inr rfl
  | some x =>
    cases b with
    | none => exact Or.inl rfl
    | some y =>
      rcases max_choice x y with h | h
      · exact Or.inl (by simp [maxO, h])
      · exact Or.inr (by simp [maxO, h])

/-- The running-minimum fold over `enqueuedAt` never grows. -/
theorem minFold_le_init (l : List SyncOperation) : ∀ a : Nat,
    l.foldl (fun x o => min x o.enqueuedAt) a ≤ a := by
  induction l with
  | nil => intro a; simp
  | cons o rest ih =>
    intro a
    exact le_trans (ih (min a o.enqueuedAt)) (min_le_left _ _)

/-- The running-minimum fold is below every folded `enqueuedAt`. -/
theorem minFold_le_mem (l : List SyncOperation) : ∀ a : Nat, ∀ o ∈ l,
    l.foldl (fun x o => min x o.enqueuedAt) a ≤ o.enqueuedAt := by
  induction l with
  | nil => intro a o ho; cases ho
  | cons o0 rest ih =>
    intro a o ho
    rcases List.mem_cons.mp ho with h | h
    · subst h
      exact le_trans (minFold_le_init rest _) (min_le_right _ _)
    · exact ih (min a o0.enqueuedAt) o h

/-- The running-minimum fold is the seed or some folded
`enqueuedAt`. -/
theorem minFold_attained (l : List SyncOperation) : ∀ a : Nat,
    l.foldl (fun x o => min x o.enqueuedAt) a = a ∨
    ∃ o ∈ l, l.foldl (fun x o => min x o.enqueuedAt) a = o.enqueuedAt := by
  induction l with
  | nil => intro a; exact Or.inl rfl
  | cons o0 rest ih =>
    intro a
    rcases ih (min a o0.enqueuedAt) with h | ⟨o, ho, h⟩
    · rcases min_choice a o0.enqueuedAt with hm | hm
      · exact Or.inl (by simpa [hm] using h)
      · exact Or.inr ⟨o0, List.mem_cons_self o0 rest, by simpa [hm] using h⟩
    · exact Or.inr ⟨o, List.mem_cons_of_mem o0 ho, by simpa using h⟩

/-- The running-maximum fold over `retries` dominates its seed. -/
theorem maxRetFold_ge_init (l : List SyncOperation) : ∀ a : Nat,
    a ≤ l.foldl (fun x o => max x o.retries) a := by
  induction l with
  | nil => intro a; simp
  | cons o0 rest ih =>
    intro a
    exact le_trans (le_max_left a o0.retries) (ih (max a o0.retries))

/-- The running-maximum fold over `retries` dominates every folded
`retries`. -/
theorem maxRetFold_ge_mem (l : List SyncOperation) : ∀ a : Nat, ∀ o ∈ l,
    o.retries ≤ l.foldl (fun x o => max x o.retries) a := by
  induction l with
  | nil => intro a o ho; cases ho
  | cons o0 rest ih =>
    intro a o ho
    rcases List.mem_cons.mp ho with h | h
    · subst h
      exact le_trans (le_max_right a o.retries) (maxRetFold_ge_init rest _)
    · exact ih (max a o0.retries) o h

/-- The running-maximum fold over `retries` is the seed or some folded
`retries`. -/
theorem maxRetFold_attained (l : List SyncOperation) : ∀ a : Nat,
    l.foldl (fun x o => max x o.retries) a = a ∨
    ∃ o ∈ l, l.foldl (fun x o => max x o.retries) a = o.retries := by
  induction l with
  | nil => intro a; exact Or.inl rfl
  | cons o0 rest ih =>
    intro a
    rcases ih (max a o0.retries) with h | ⟨o, ho, h⟩
    · rcases max_choice a o0.retries with hm | hm
      · exact Or.inl (by simpa [hm] using h)
      · exact Or.inr ⟨o0, List.mem_cons_self o0 rest, by simpa [hm] using h⟩
    · exact Or.inr ⟨o, List.mem_cons_of_mem o0 ho, by simpa using h⟩

/-- The `maxO` fold over `nextRetryAt` dominates its seed. -/
theorem nraFold_ge_init (l : List SyncOperation) : ∀ a : Option Nat,
    leO a (l.foldl (fun x o => maxO x o.nextRetryAt) a) := by
  induction l with
  | nil => intro a; exact leO_refl a
  | cons o0 rest ih =>
    intro a
    exact leO_trans a (maxO a o0.nextRetryAt) _
      (leO_maxO_left _ _) (ih (maxO a o0.nextRetryAt))

/-- The `maxO` fold over `nextRetryAt` dominates every folded
`nextRetryAt`. -/
theorem nraFold_ge_mem (l : List SyncOperation) : ∀ a : Option Nat,
    ∀ o ∈ l, leO o.nextRetryAt (l.foldl (fun x o => maxO x o.nextRetryAt) a) := by
  induction l with
  | nil => intro a o ho; cases ho
  | cons o0 rest ih =>
    intro a o ho
    rcases List.mem_cons.mp ho with h | h
    · subst h
      exact leO_trans o.nextRetryAt (maxO a o.nextRetryAt) _
        (leO_maxO_right _ _) (nraFold_ge_init rest _)
    · exact ih (maxO a o0.nextRetryAt) o h

/-- The `maxO` fold over `nextRetryAt` is the seed or some folded
`nextRetryAt`. -/
theorem nraFold_attained (l : List SyncOperation) : ∀ a : Option Nat,
    l.foldl (fun x o => maxO x o.nextRetryAt) a = a ∨
    ∃ o ∈ l, l.foldl (fun x o => maxO x o.nextRetryAt) a = o.nextRetryAt := by
  induction l with
  | nil => intro a; exact Or.inl rfl
  | cons o0 rest ih =>
    intro a
    rcases ih (maxO a o0.nextRetryAt) with h | ⟨o, ho, h⟩
    · rcases maxO_choice a o0.nextRetryAt with hm | hm
      · refine Or.inl ?_
        simp only [List.foldl_cons]
        rw [h, hm]
      · refine Or.inr ⟨o0, List.mem_cons_self o0 rest, ?_⟩
        simp only [List.foldl_cons]
        rw [h, hm]
    · exact Or.inr ⟨o, List.mem_cons_of_mem o0 ho, by simpa using h⟩

/-- The value `minEnq` is below every member's `enqueuedAt`. -/
theorem minEnq_le_mem (l : List SyncOperation) (o : SyncOperation)
    (ho : o ∈ l) : minEnq l ≤ o.enqueuedAt := by
  cases l with
  | nil => cases ho
  | cons o0 rest =>
    rcases List.mem_cons.mp ho with h | h
    · subst h
      exact minFold_le_init rest o.enqueuedAt
    · exact minFold_le_mem rest o0.enqueuedAt o h

/-- The value `minEnq` of a nonempty list is some member's `enqueuedAt`. -/
theorem minEnq_attained (l : List SyncOperation) (hl : l ≠ []) :
    ∃ o ∈ l, minEnq l = o.enqueuedAt := by
  cases l with
  | nil => exact absurd rfl hl
  | cons o0 rest =>
    rcases minFold_attained rest o0.enqueuedAt with h | ⟨o, ho, h⟩
    · exact ⟨o0, List.mem_cons_self o0 rest, h⟩
    · exact ⟨o, List.mem_cons_of_mem o0 ho, h⟩

/-- The value `maxRetries` dominates every member's `retries`. -/
theorem maxRetries_ge_mem (l : List SyncOperation) (o : SyncOperation)
    (ho : o ∈ l) : o.retries ≤ maxRetries l :=
  maxRetFold_ge_mem l 0 o ho

/-- The value `maxRetries` of a nonempty list is some member's `retries`. -/
theorem maxRetries_attained (l : List SyncOperation) (hl : l ≠ []) :
    ∃ o ∈ l, maxRetries l = o.retries := by
  rcases maxRetFold_attained l 0 with h | h
  · cases l with
    | nil => exact absurd rfl hl
    | cons o0 rest =>
      refine ⟨o0, List.mem_cons_self o0 rest, ?_⟩
      have h2 := maxRetries_ge_mem (o0 :: rest) o0 (List.mem_cons_self o0 rest)
      have h0 : maxRetries (o0 :: rest) = 0 := h
      omega
  · exact h

/-- The value `maxNra` dominates every member's `nextRetryAt`. -/
theorem maxNra_ge_mem (l : List SyncOperation) (o : SyncOperation)
    (ho : o ∈ l) : leO o.nextRetryAt (maxNra l) :=
  nraFold_ge_mem l Option.none o ho

/-- The value `maxNra` is `none` or some member's `nextRetryAt`. -/
theorem maxNra_attained (l : List SyncOperation) :
    maxNra l = Option.none ∨ ∃ o ∈ l, maxNra l = o.nextRetryAt :=
  nraFold_attained l Option.none

/-- The function `firstDedup` keeps exactly the members of the input. -/
theorem mem_firstDedup (a : String) : ∀ l : List String,
    (a ∈ firstDedup l ↔ a ∈ l) := by
  intro l
  induction l with
  | nil => simp [firstDedup]
  | cons f rest ih =>
    by_cases h : a = f
    · simp [firstDedup, h]
    · simp [firstDedup, List.mem_filter, h, ih]

/-- C9: every operation in the coalesced result carries the earliest
`enqueuedAt` and the maximum `retries` and maximum `nextRetryAt` among
the source operations folded into it, so retry/backoff state survives
coalescing instead of being reset or taken from the newest
operation. -/
theorem coalesce_preserves_backoff (ops : List SyncOperation)
    (o : SyncOperation) (ho : o ∈ coalesce ops) :
    (∀ s ∈ sourcesOf ops o, o.enqueuedAt ≤ s.enqueuedAt) ∧
    (∃ s ∈ sourcesOf ops o, o.enqueuedAt = s.enqueuedAt) ∧
    (∀ s ∈ sourcesOf ops o, s.retries ≤ o.retries) ∧
    (∃ s ∈ sourcesOf ops o, o.retries = s.retries) ∧
    (∀ s ∈ sourcesOf ops o, leO s.nextRetryAt o.nextRetryAt) ∧
    (o.nextRetryAt = Option.none ∨
      ∃ s ∈ sourcesOf ops o, o.nextRetryAt = s.nextRetryAt) := by
  by_cases hd : hasDelete ops
  · by_cases hcbd : createBeforeDelete ops
    · simp [coalesce, hd, hcbd] at ho
    · simp only [coalesce, hd, hcbd, if_true, if_false,
        Bool.false_eq_true, List.mem_singleton] at ho
      subst ho
      have hne : ops ≠ [] := by
        obtain ⟨x, hx, _⟩ := List.any_eq_true.mp hd
        exact List.ne_nil_of_mem hx
      refine ⟨fun s hs => ?_, ?_, fun s hs => ?_, ?_, fun s hs => ?_, ?_⟩
      · exact minEnq_le_mem ops s hs
      · exact minEnq_attained ops hne
      · exact maxRetries_ge_mem ops s hs
      · exact maxRetries_attained ops hne
      · exact maxNra_ge_mem ops s hs
      · exact maxNra_attained ops
  · simp only [coalesce, hd, Bool.false_eq_true, if_false,
      List.mem_append] at ho
    rcases ho with ho | ho
    · by_cases hc : hasCreate ops
      · simp only [hc, if_true, List.mem_singleton] at ho
        subst ho
        have hne : ops.filter (fun x => x.isCreate || x.isSet) ≠ [] := by
          obtain ⟨x, hx, hxc⟩ := List.any_eq_true.mp hc
          exact List.ne_nil_of_mem
            (List.mem_filter.mpr ⟨hx, by simp [hxc]⟩)
        refine ⟨fun s hs => ?_, ?_, fun s hs => ?_, ?_, fun s hs => ?_, ?_⟩
        · exact minEnq_le_mem _ s hs
        · exact minEnq_attained _ hne
        · exact maxRetries_ge_mem _ s hs
        · exact maxRetries_attained _ hne
        · exact maxNra_ge_mem _ s hs
        · exact maxNra_attained _
      · by_cases hst : hasSet ops
        · simp only [hc, hst, if_true, if_false, Bool.false_eq_true,
            List.mem_singleton] at ho
          subst ho
          have hne : ops.filter SyncOperation.isSet ≠ [] := by
            obtain ⟨x, hx, hxs⟩ := List.any_eq_true.mp hst
            exact List.ne_nil_of_mem (List.mem_filter.mpr ⟨hx, hxs⟩)
          refine ⟨fun s hs => ?_, ?_, fun s hs => ?_, ?_, fun s hs => ?_, ?_⟩
          · exact minEnq_le_mem _ s hs
          · exact minEnq_attained _ hne
          · exact maxRetries_ge_mem _ s hs
          · exact maxRetries_attained _ hne
          · exact maxNra_ge_mem _ s hs
          · exact maxNra_attained _
        · simp [hc, hst] at ho
    · simp only [coalesceIncs, List.mem_map] at ho
      obtain ⟨f, hf, rfl⟩ := ho
      have hne : incsOn f ops ≠ [] := by
        simp only [incFieldsOf, mem_firstDedup] at hf
        obtain ⟨x, hx, hxf⟩ := List.mem_filterMap.mp hf
        refine List.ne_nil_of_mem (l := incsOn f ops)
          (List.mem_filter.mpr ⟨hx, ?_⟩)
        unfold SyncOperation.isIncOn
        cases hop : x.op <;> rw [hop] at hxf <;> simp_all
      refine ⟨fun s hs => ?_, ?_, fun s hs => ?_, ?_, fun s hs => ?_, ?_⟩
      · exact minEnq_le_mem _ s hs
      · exact minEnq_attained _ hne
      · exact maxRetries_ge_mem _ s hs
      · exact maxRetries_attained _ hne
      · exact maxNra_ge_mem _ s hs
      · exact maxNra_attained _

/-- C9 witness: coalescing two increments on `"n"` (enqueued at 5 with
2 retries and a retry scheduled at 10, and enqueued at 3 with 7 retries
and none scheduled) yields the single increment carrying `enqueuedAt 3`,
`retries 7`, `nextRetryAt 10`, whose `enqueuedAt` is one of its
sources'. -/
theorem coalesce_preserves_backoff_witness :
    ∃ s ∈ sourcesOf
        [⟨.increment "n" 1, 5, 2, some 10⟩,
         ⟨.increment "n" 2, 3, 7, Option.none⟩]
        ⟨.increment "n" 3, 3, 7, some 10⟩,
      (⟨.increment "n" 3, 3, 7, some 10⟩ : SyncOperation).enqueuedAt =
        s.enqueuedAt :=
  (coalesce_preserves_backoff
      [⟨.increment "n" 1, 5, 2, some 10⟩,
       ⟨.increment "n" 2, 3, 7, Option.none⟩]
      ⟨.increment "n" 3, 3, 7, some 10⟩ (by decide)).2.1

/-- The function `firstDedup` emits duplicate-free output. -/
theorem firstDedup_nodup : ∀ l : List String, (firstDedup l).Nodup := by
  intro l
  induction l with
  | nil => simp [firstDedup]
  | cons f rest ih =>
    simp only [firstDedup, List.nodup_cons]
    constructor
    · intro hmem
      exact absurd rfl (of_decide_eq_true (List.mem_filter.mp hmem).2)
    · exact List.Nodup.filter _ ih

/-- In a duplicate-free list containing `f`, exactly one entry equals
`f`. -/
theorem countP_deceq_one (f : String) : ∀ l : List String, l.Nodup →
    f ∈ l → l.countP (fun g => decide (g = f)) = 1 := by
  intro l
  induction l with
  | nil => intro _ h; cases h
  | cons a rest ih =>
    intro hnd hm
    simp only [List.nodup_cons] at hnd
    by_cases h : a = f
    · subst h
      rw [List.countP_cons]
      simp only [decide_eq_true_eq, if_pos rfl]
      have h0 : rest.countP (fun g => decide (g = a)) = 0 :=
        List.countP_eq_zero.mpr fun g hg => by
          simp only [decide_eq_true_eq]
          intro he
          exact hnd.1 (he ▸ hg)
      rw [h0]
      simp
    · rcases List.mem_cons.mp hm with hfa | hfa
      · exact absurd hfa.symm h
      · rw [List.countP_cons]
        simp only [decide_eq_true_eq, h, if_false]
        simpa using ih hnd.2 hfa

/-- C3: in a queue group with no delete, all the increments on one
field coalesce to exactly one increment operation whose delta is the
sum of the individual deltas. -/
theorem coalesce_sums_increments_per_field (ops : List SyncOperation)
    (f : String) (hnd : hasDelete ops = false)
    (hinc : ∃ o ∈ ops, o.isIncOn f = true) :
    (coalesce ops).countP (SyncOperation.isIncOn f) = 1 ∧
    ∀ o ∈ coalesce ops, o.isIncOn f = true →
      o.op = .increment f (((incsOn f ops).map SyncOperation.delta).sum) := by
  have hmemf : f ∈ incFieldsOf ops := by
    obtain ⟨o, ho, hof⟩ := hinc
    unfold incFieldsOf
    rw [mem_firstDedup]
    refine List.mem_filterMap.mpr ⟨o, ho, ?_⟩
    unfold SyncOperation.isIncOn at hof
    cases hop : o.op <;> rw [hop] at hof <;> simp_all
  constructor
  · rw [coalesce, hnd]
    simp only [Bool.false_eq_true, if_false, List.countP_append]
    have h2 : (coalesceIncs ops).countP (SyncOperation.isIncOn f) = 1 := by
      unfold coalesceIncs
      rw [List.countP_map]
      have heq : ((incFieldsOf ops).countP
          ((SyncOperation.isIncOn f) ∘ fun f' =>
            ({ op := .increment f' (((incsOn f' ops).map
                  SyncOperation.delta).sum)
               enqueuedAt := minEnq (incsOn f' ops)
               retries := maxRetries (incsOn f' ops)
               nextRetryAt := maxNra (incsOn f' ops) } : SyncOperation))) =
          (incFieldsOf ops).countP (fun g => decide (g = f)) :=
        List.countP_congr fun g _ => by
          simp [SyncOperation.isIncOn]
      rw [heq, countP_deceq_one f (incFieldsOf ops)
        (firstDedup_nodup _) hmemf]
    rw [h2]
    by_cases hc : hasCreate ops
    · simp only [hc, if_true, List.countP_cons, List.countP_nil]
      simp [SyncOperation.isIncOn]
    · by_cases hst : hasSet ops
      · simp only [hc, hst, Bool.false_eq_true, if_false, if_true,
          List.countP_cons, List.countP_nil]
        simp [SyncOperation.isIncOn]
      · simp [hc, hst]
  · intro o ho hof
    rw [coalesce, hnd] at ho
    simp only [Bool.false_eq_true, if_false, List.mem_append] at ho
    rcases ho with ho | ho
    · exfalso
      by_cases hc : hasCreate ops
      · simp only [hc, if_true, List.mem_singleton] at ho
        subst ho
        simp [SyncOperation.isIncOn] at hof
      · by_cases hst : hasSet ops
        · simp only [hc, hst, Bool.false_eq_true, if_false, if_true,
            List.mem_singleton] at ho
          subst ho
          simp [SyncOperation.isIncOn] at hof
        · simp [hc, hst] at ho
    · unfold coalesceIncs at ho
      obtain ⟨f', hf', rfl⟩ := List.mem_map.mp ho
      have : f' = f := by
        simpa [SyncOperation.isIncOn] using hof
      subst this
      rfl

/-- C3 witness: 50 queued increments of +1 on `"k"` coalesce to exactly
one increment operation on `"k"`, and it carries delta +50. -/
theorem coalesce_sums_increments_per_field_witness :
    (coalesce (List.replicate 50
        ⟨.increment "k" 1, 0, 0, Option.none⟩)).countP
      (SyncOperation.isIncOn "k") = 1 ∧
    ∀ o ∈ coalesce (List.replicate 50
        ⟨.increment "k" 1, 0, 0, Option.none⟩),
      o.isIncOn "k" = true → o.op = .increment "k" 50 := by
  have h := coalesce_sums_increments_per_field
    (List.replicate 50 ⟨.increment "k" 1, 0, 0, Option.none⟩) "k"
    (by decide)
    ⟨⟨.increment "k" 1, 0, 0, Option.none⟩, by decide, by decide⟩
  refine ⟨h.1, fun o ho hof => ?_⟩
  rw [h.2 o ho hof]
  decide

/-- C4: an unpushed `create` followed by any number of `set`s and then
a `delete` of the same entity coalesces to the empty operation list —
nothing is sent for the entity — while a group containing a `delete`
with no unpushed `create` before it collapses to a single `delete`. -/
theorem coalesce_create_delete_annihilates (c d : SyncOperation)
    (sets ops : List SyncOperation)
    (hc : c.isCreate = true) (_hsets : ∀ o ∈ sets, o.isSet = true)
    (hd : d.isDelete = true) :
    coalesce (c :: (sets ++ [d])) = [] ∧
    (hasDelete ops = true → createBeforeDelete ops = false →
      ∃ o, coalesce ops = [o] ∧ o.op = .delete) := by
  constructor
  · have hdel : hasDelete (c :: (sets ++ [d])) = true :=
      List.any_eq_true.mpr ⟨d, by simp, hd⟩
    have hcbd : createBeforeDelete (c :: (sets ++ [d])) = true := by
      unfold SyncOperation.isCreate at hc
      cases hop : c.op <;> rw [hop] at hc <;> try cases hc
      unfold createBeforeDelete
      rw [hop]
      have : hasDelete (sets ++ [d]) = true :=
        List.any_eq_true.mpr ⟨d, by simp, hd⟩
      simp [this]
    simp [coalesce, hdel, hcbd]
  · intro h1 h2
    refine ⟨⟨.delete, minEnq ops, maxRetries ops, maxNra ops⟩, ?_, rfl⟩
    simp [coalesce, h1, h2]

/-- C4 witness: `create` then `set` then `delete` of one entity
coalesces to no operations at all, while `set` then `delete` with no
prior create collapses to one `delete`. -/
theorem coalesce_create_delete_annihilates_witness :
    coalesce [⟨.create [("a", 1)], 0, 0, Option.none⟩,
              ⟨.set [("a", 2)], 1, 0, Option.none⟩,
              ⟨.delete, 2, 0, Option.none⟩] = [] ∧
    ∃ o, coalesce [⟨.set [("b", 1)], 0, 0, Option.none⟩,
                   ⟨.delete, 1, 0, Option.none⟩] = [o] ∧
      o.op = .delete := by
  have h := coalesce_create_delete_annihilates
    ⟨.create [("a", 1)], 0, 0, Option.none⟩
    ⟨.delete, 2, 0, Option.none⟩
    [⟨.set [("a", 2)], 1, 0, Option.none⟩]
    [⟨.set [("b", 1)], 0, 0, Option.none⟩,
     ⟨.delete, 1, 0, Option.none⟩]
    (by decide) (by decide) (by decide)
  exact ⟨h.1, h.2 (by decide) (by decide)⟩

end StellarDrive
